import Mathlib

/-!
Verification of the tag-setting rule engine in
`musify_cli/config/operations/tagger/_tagger.py`.

Items are addressable entities identified by reference; we model identity as a
natural number.  A `Collection` is an ordered sequence of items.  Setters mutate
one field of an item in place; we model the mutable world as a write trace
(`Store`, newest write first), so a field read is the newest write for that
(item, field) pair.  Each write event also records the collection the setter
was invoked with, which makes the collection-resolution behaviour of
`Tagger.set_tags` observable.  Setter failures are Python exceptions; we model
a run's outcome as `Store × Option String` — the store at the moment the
exception escaped, plus the escaped error (if any) — since in-place mutations
performed before an exception persist.

The opaque external capabilities (a `Filter` is a function on item sequences;
a `Setter`'s value computation may read the item, its siblings and the current
state and may fail) are embedded as function-valued fields, and the external
factories `get_comparers_filter` / `setter_from_config` as function parameters
of `Tagger.from_config`.
-/

abbrev ItemId := Nat
abbrev FieldId := Nat
abbrev Val := Int
abbrev Coll := List ItemId

/-- One performed write: the item, the written field, the written value, and
the collection context the setter was invoked with. -/
structure SetEvent where
  item : ItemId
  field : FieldId
  value : Val
  coll : Coll
  deriving DecidableEq, Repr

/-- The mutable world: the trace of performed writes, newest first. -/
abbrev Store := List SetEvent

/-- Read a field of an item: the newest write to that (item, field) pair. -/
def getTag (st : Store) (i : ItemId) (f : FieldId) : Option Val :=
  (st.find? (fun e => e.item == i && e.field == f)).map (·.value)

/-- The opaque Setter capability: bound to one field; computes the value to
assign from the current state, the item and its collection context, and may
fail (raise). -/
structure Setter where
  field : FieldId
  compute : Store → ItemId → Coll → Except String Val

/-- `setter.set(item, collection)`: compute the value and write it to the
setter's bound field of `item`, or propagate the failure. -/
def Setter.set (s : Setter) (st : Store) (i : ItemId) (c : Coll) : Store × Option String :=
  match s.compute st i c with
  | Except.ok v => (⟨i, s.field, v, c⟩ :: st, none)
  | Except.error e => (st, some e)

/-- A setter that always writes the constant value `v` to field `f`. -/
def constSetter (f : FieldId) (v : Val) : Setter :=
  ⟨f, fun _ _ _ => Except.ok v⟩

/-- A setter that never fails. -/
def TotalSetter (s : Setter) : Prop :=
  ∀ st i c, ∃ v, s.compute st i c = Except.ok v

/-- The `for setter in self.setters: setter.set(item, collection)` loop of
`FilteredSetter.set_tags`: run the setters in order, stopping at the first
failure (the exception propagates). -/
def applySetters : List Setter → ItemId → Coll → Store → Store × Option String
  | [], _, _, st => (st, none)
  | s :: ss, i, c, st =>
    match s.set st i c with
    | (st', some e) => (st', some e)
    | (st', none) => applySetters ss i c st'

/-- `FilteredSetter`: one filter paired with an ordered sequence of setters. -/
structure FilteredSetter where
  filter : List ItemId → List ItemId
  setters : List Setter

/-- `FilteredSetter.set_tags`: apply every setter, in order, to the given item
with the given collection context. -/
def FilteredSetter.set_tags (fs : FilteredSetter) (i : ItemId) (c : Coll) (st : Store) :
    Store × Option String :=
  applySetters fs.setters i c st

/-- `next(iter(coll for coll in collections if item in coll), ())`: the first
collection containing the item, or the empty collection. -/
def firstColl (colls : List Coll) (i : ItemId) : Coll :=
  (colls.find? (fun c => decide (i ∈ c))).getD []

/-- The `for item in filtered_items` loop of `Tagger.set_tags`: resolve each
item's owning collection and run the binding's setters on it, stopping when an
exception propagates. -/
def applyItems (fs : FilteredSetter) (colls : List Coll) :
    List ItemId → Store → Store × Option String
  | [], st => (st, none)
  | i :: rest, st =>
    match fs.set_tags i (firstColl colls i) st with
    | (st', some e) => (st', some e)
    | (st', none) => applyItems fs colls rest st'

/-- `Tagger`: the ordered collection of filtered setters. -/
structure Tagger where
  setters : List FilteredSetter

/-- The `for setter in self.setters` loop of `Tagger.set_tags`: each binding's
filter is applied to the full original `items`, then the binding is applied to
each matched item; an exception stops the remaining bindings. -/
def runBindings (items : List ItemId) (colls : List Coll) :
    List FilteredSetter → Store → Store × Option String
  | [], st => (st, none)
  | fs :: rest, st =>
    match applyItems fs colls (fs.filter items) st with
    | (st', some e) => (st', some e)
    | (st', none) => runBindings items colls rest st'

/-- `Tagger.set_tags(items, collections)`. -/
def Tagger.set_tags (t : Tagger) (items : List ItemId) (colls : List Coll) (st : Store) :
    Store × Option String :=
  runBindings items colls t.setters st

/-!
The compile side (`Tagger.from_config`).  A rule-spec is an ordered mapping
from string keys to opaque setter-configuration values; a config element may
also already be a built `FilteredSetter` (checked with `isinstance` in the
source).  The external factories (`get_comparers_filter`, whose source lives
outside this tree, and `setter_from_config`, likewise) are parameters `ff` and
`sf`; a factory failure is a typed compile error.
-/

abbrev SpecVal := Nat

/-- Errors that can escape compilation: a raw mapping-lookup `KeyError`, a
failed field-name resolution, or a factory failure. -/
inductive CompileError where
  | keyError (key : String)
  | unknownField (key : String)
  | filterSpecError (msg : String)
  | setterSpecError (msg : String)
  deriving DecidableEq, Repr

/-- A config element: an already-built `FilteredSetter`, or a raw rule-spec
mapping (ordered key/value pairs). -/
inductive RuleEntry where
  | binding (fs : FilteredSetter)
  | spec (kvs : List (String × SpecVal))

/-- The argument of `Tagger.from_config`: an already-compiled `Tagger`, or a
sequence of rule-specs. -/
inductive TaggerConfig where
  | compiled (t : Tagger)
  | raw (rules : List RuleEntry)

/-- Mapping lookup `m[k]`: the value at the first occurrence of key `k`. -/
def lookupKey (kvs : List (String × SpecVal)) (k : String) : Option SpecVal :=
  (kvs.find? (·.1 == k)).map (·.2)

/-- Case folding used for case-insensitive name comparison. -/
def caseFold (s : String) : List Char :=
  s.data.map Char.toLower

/-- Modelled from the spec: field-identifier resolution
(`LocalTrackField.from_name`, from the external musify library, absent from
this tree) — "case-insensitive exact-name lookup against the fixed field
enum", failing when no match exists.  The fixed enum is the parameter
`table`. -/
def from_name (table : List (String × FieldId)) (key : String) : Option FieldId :=
  (table.find? (fun p => caseFold p.1 == caseFold key)).map (·.2)

/-- The setter list comprehension of `Tagger.from_config`: for every
non-reserved key in mapping order, resolve the field name and build a setter
through the setter factory `sf`; the first failure escapes. -/
def compileSetters (sf : FieldId → SpecVal → Except CompileError Setter)
    (table : List (String × FieldId)) :
    List (String × SpecVal) → Except CompileError (List Setter)
  | [] => Except.ok []
  | (k, v) :: rest =>
    if k = "filter" ∨ k = "field" then compileSetters sf table rest
    else
      match from_name table k with
      | none => Except.error (CompileError.unknownField k)
      | some fld =>
        match sf fld v with
        | Except.error e => Except.error e
        | Except.ok s =>
          match compileSetters sf table rest with
          | Except.error e => Except.error e
          | Except.ok ss => Except.ok (s :: ss)

/-- Compile one config element: an already-built `FilteredSetter` passes
through verbatim; a raw rule-spec reads `m["filter"]` (a missing key is a
`KeyError`), builds the filter through the filter factory `ff`, then builds
the setters. -/
def compileRule (ff : SpecVal → Except CompileError (List ItemId → List ItemId))
    (sf : FieldId → SpecVal → Except CompileError Setter)
    (table : List (String × FieldId)) : RuleEntry → Except CompileError FilteredSetter
  | RuleEntry.binding fs => Except.ok fs
  | RuleEntry.spec kvs =>
    match lookupKey kvs "filter" with
    | none => Except.error (CompileError.keyError "filter")
    | some fv =>
      match ff fv with
      | Except.error e => Except.error e
      | Except.ok flt =>
        match compileSetters sf table kvs with
        | Except.error e => Except.error e
        | Except.ok ss => Except.ok ⟨flt, ss⟩

/-- The `for rule_set in config` loop of `Tagger.from_config`: compile the
rules in order, the first failure escaping. -/
def compileRules (ff : SpecVal → Except CompileError (List ItemId → List ItemId))
    (sf : FieldId → SpecVal → Except CompileError Setter)
    (table : List (String × FieldId)) : List RuleEntry → Except CompileError (List FilteredSetter)
  | [] => Except.ok []
  | r :: rs =>
    match compileRule ff sf table r with
    | Except.error e => Except.error e
    | Except.ok fs =>
      match compileRules ff sf table rs with
      | Except.error e => Except.error e
      | Except.ok rest => Except.ok (fs :: rest)

/-- `Tagger.from_config(config)`: an already-compiled `Tagger` is returned
unchanged; otherwise compile every rule-spec in order into a new `Tagger`. -/
def Tagger.from_config (ff : SpecVal → Except CompileError (List ItemId → List ItemId))
    (sf : FieldId → SpecVal → Except CompileError Setter)
    (table : List (String × FieldId)) : TaggerConfig → Except CompileError Tagger
  | TaggerConfig.compiled t => Except.ok t
  | TaggerConfig.raw rules => (compileRules ff sf table rules).map Tagger.mk

/-!
Shared lemmas about the runtime traces.
-/

/-- `FilteredSetter.set_tags` unfolds to the setter loop. -/
theorem FilteredSetter.set_tags_eq_applySetters (fs : FilteredSetter) (i : ItemId) (c : Coll) (st : Store) :
    fs.set_tags i c st = applySetters fs.setters i c st := rfl

/-- `Tagger.set_tags` unfolds to the binding loop. -/
theorem Tagger.set_tags_eq_runBindings (t : Tagger) (items : List ItemId) (colls : List Coll) (st : Store) :
    t.set_tags items colls st = runBindings items colls t.setters st := rfl

/-- Every write performed by the setter loop targets the given item with the
given collection context, and the writes are prepended to the store. -/
theorem applySetters_events (ss : List Setter) (i : ItemId) (c : Coll) (st st' : Store)
    (err : Option String) (h : applySetters ss i c st = (st', err)) :
    ∃ new, st' = new ++ st ∧ ∀ e ∈ new, e.item = i ∧ e.coll = c := by
  induction ss generalizing st with
  | nil =>
    simp only [applySetters, Prod.mk.injEq] at h
    exact ⟨[], h.1.symm, by simp⟩
  | cons s ss ih =>
    cases hc : s.compute st i c with
    | error er =>
      simp only [applySetters, Setter.set, hc, Prod.mk.injEq] at h
      exact ⟨[], h.1.symm, by simp⟩
    | ok v =>
      simp only [applySetters, Setter.set, hc] at h
      obtain ⟨new, hst, hmem⟩ := ih (⟨i, s.field, v, c⟩ :: st) h
      refine ⟨new ++ [⟨i, s.field, v, c⟩], ?_, ?_⟩
      · rw [hst, List.append_assoc, List.singleton_append]
      · intro e he
        rcases List.mem_append.mp he with hmm | hmm
        · exact hmem e hmm
        · simp only [List.mem_singleton] at hmm
          subst hmm
          exact ⟨rfl, rfl⟩

/-- If none of the setters fails, the setter loop reports no error. -/
theorem applySetters_total (ss : List Setter) (htot : ∀ s ∈ ss, TotalSetter s)
    (i : ItemId) (c : Coll) (st : Store) : (applySetters ss i c st).2 = none := by
  induction ss generalizing st with
  | nil => rfl
  | cons s ss ih =>
    obtain ⟨v, hv⟩ := htot s (by simp) st i c
    simp only [applySetters, Setter.set, hv]
    exact ih (fun s hs => htot s (List.mem_cons_of_mem _ hs)) _

/-- A successful setter loop performs exactly one write per setter, in the
setters' order, all targeting the given item with the given collection. -/
theorem applySetters_ok (ss : List Setter) (i : ItemId) (c : Coll) (st st' : Store)
    (h : applySetters ss i c st = (st', none)) :
    ∃ evs : List SetEvent, st' = evs.reverse ++ st ∧
      evs.map SetEvent.field = ss.map Setter.field ∧
      ∀ e ∈ evs, e.item = i ∧ e.coll = c := by
  induction ss generalizing st with
  | nil =>
    simp only [applySetters, Prod.mk.injEq] at h
    exact ⟨[], h.1.symm, rfl, by simp⟩
  | cons s ss ih =>
    cases hc : s.compute st i c with
    | error er =>
      simp only [applySetters, Setter.set, hc, Prod.mk.injEq] at h
      exact absurd h.2 (by simp)
    | ok v =>
      simp only [applySetters, Setter.set, hc] at h
      obtain ⟨evs, hst, hmap, hmem⟩ := ih (⟨i, s.field, v, c⟩ :: st) h
      refine ⟨⟨i, s.field, v, c⟩ :: evs, ?_, ?_, ?_⟩
      · rw [hst, List.reverse_cons, List.append_assoc, List.singleton_append]
      · simp [hmap]
      · intro e he
        rcases List.mem_cons.mp he with hmm | hmm
        · subst hmm; exact ⟨rfl, rfl⟩
        · exact hmem e hmm

/-- Every write performed by the item loop carries the collection resolved as
the first collection of `colls` containing the written item. -/
theorem applyItems_events (fs : FilteredSetter) (colls : List Coll) (l : List ItemId)
    (st st' : Store) (err : Option String) (h : applyItems fs colls l st = (st', err)) :
    ∃ new, st' = new ++ st ∧ ∀ e ∈ new, e.coll = firstColl colls e.item := by
  induction l generalizing st with
  | nil =>
    simp only [applyItems, Prod.mk.injEq] at h
    exact ⟨[], h.1.symm, by simp⟩
  | cons i rest ih =>
    rcases hres : fs.set_tags i (firstColl colls i) st with ⟨st1, err1⟩
    obtain ⟨new1, h1, hmem1⟩ :=
      applySetters_events fs.setters i (firstColl colls i) st st1 err1 hres
    have hmem1' : ∀ e ∈ new1, e.coll = firstColl colls e.item := by
      intro e he
      obtain ⟨hi, hcoll⟩ := hmem1 e he
      rw [hcoll, hi]
    cases err1 with
    | some er =>
      simp only [applyItems, hres, Prod.mk.injEq] at h
      exact ⟨new1, h.1.symm.trans h1, hmem1'⟩
    | none =>
      simp only [applyItems, hres] at h
      obtain ⟨new2, h2, hmem2⟩ := ih st1 h
      refine ⟨new2 ++ new1, ?_, ?_⟩
      · rw [h2, h1, List.append_assoc]
      · intro e he
        rcases List.mem_append.mp he with hmm | hmm
        · exact hmem2 e hmm
        · exact hmem1' e hmm

/-- If none of the binding's setters fails, the item loop reports no error. -/
theorem applyItems_total (fs : FilteredSetter) (htot : ∀ s ∈ fs.setters, TotalSetter s)
    (colls : List Coll) (l : List ItemId) (st : Store) :
    (applyItems fs colls l st).2 = none := by
  induction l generalizing st with
  | nil => rfl
  | cons i rest ih =>
    rcases hres : fs.set_tags i (firstColl colls i) st with ⟨st1, err1⟩
    have herr : err1 = none := by
      have hud := applySetters_total fs.setters htot i (firstColl colls i) st
      rw [FilteredSetter.set_tags_eq_applySetters] at hres
      rw [hres] at hud
      exact hud
    subst herr
    simp only [applyItems, hres]
    exact ih st1

/-- Every write performed by the binding loop carries the collection resolved
as the first collection of `colls` containing the written item. -/
theorem runBindings_events (items : List ItemId) (colls : List Coll)
    (bs : List FilteredSetter) (st st' : Store) (err : Option String)
    (h : runBindings items colls bs st = (st', err)) :
    ∃ new, st' = new ++ st ∧ ∀ e ∈ new, e.coll = firstColl colls e.item := by
  induction bs generalizing st with
  | nil =>
    simp only [runBindings, Prod.mk.injEq] at h
    exact ⟨[], h.1.symm, by simp⟩
  | cons fs rest ih =>
    rcases hres : applyItems fs colls (fs.filter items) st with ⟨st1, err1⟩
    obtain ⟨new1, h1, hmem1⟩ := applyItems_events fs colls (fs.filter items) st st1 err1 hres
    cases err1 with
    | some er =>
      simp only [runBindings, hres, Prod.mk.injEq] at h
      exact ⟨new1, h.1.symm.trans h1, hmem1⟩
    | none =>
      simp only [runBindings, hres] at h
      obtain ⟨new2, h2, hmem2⟩ := ih st1 h
      refine ⟨new2 ++ new1, ?_, ?_⟩
      · rw [h2, h1, List.append_assoc]
      · intro e he
        rcases List.mem_append.mp he with hmm | hmm
        · exact hmem2 e hmm
        · exact hmem1 e hmm

/-- If no setter of any binding fails, the binding loop reports no error. -/
theorem runBindings_total (items : List ItemId) (colls : List Coll)
    (bs : List FilteredSetter) (htot : ∀ fs ∈ bs, ∀ s ∈ fs.setters, TotalSetter s)
    (st : Store) : (runBindings items colls bs st).2 = none := by
  induction bs generalizing st with
  | nil => rfl
  | cons fs rest ih =>
    rcases hres : applyItems fs colls (fs.filter items) st with ⟨st1, err1⟩
    have herr : err1 = none := by
      have hud := applyItems_total fs (htot fs (by simp)) colls (fs.filter items) st
      rw [hres] at hud
      exact hud
    subst herr
    simp only [runBindings, hres]
    exact ih (fun fs hfs => htot fs (List.mem_cons_of_mem _ hfs)) st1

/-- Reading after a write: the new write answers exactly the reads of its own
(item, field) pair. -/
theorem getTag_cons (j i : ItemId) (f' f : FieldId) (v : Val) (c : Coll) (st : Store) :
    getTag (⟨j, f', v, c⟩ :: st) i f =
      if j = i ∧ f' = f then some v else getTag st i f := by
  by_cases h : j = i ∧ f' = f
  · obtain ⟨h1, h2⟩ := h
    subst h1
    subst h2
    rw [if_pos ⟨rfl, rfl⟩]
    unfold getTag
    rw [List.find?_cons_of_pos _ (by simp)]
    rfl
  · rw [if_neg h]
    unfold getTag
    rw [List.find?_cons_of_neg]
    simp only [Bool.and_eq_true, beq_iff_eq, not_and]
    intro h1 h2
    exact h ⟨h1, h2⟩

/-- A binding with the single constant setter `constSetter F v` never fails and
preserves an already-written value `v` at any item's field `F`. -/
theorem applyItems_const_preserve (flt : List ItemId → List ItemId) (F : FieldId) (v : Val)
    (colls : List Coll) (I : ItemId) (l : List ItemId) (st : Store)
    (h : getTag st I F = some v) :
    (applyItems ⟨flt, [constSetter F v]⟩ colls l st).2 = none ∧
      getTag (applyItems ⟨flt, [constSetter F v]⟩ colls l st).1 I F = some v := by
  induction l generalizing st with
  | nil => exact ⟨rfl, h⟩
  | cons j rest ih =>
    have hstep : FilteredSetter.set_tags ⟨flt, [constSetter F v]⟩ j (firstColl colls j) st =
        (⟨j, F, v, firstColl colls j⟩ :: st, none) := rfl
    simp only [applyItems, hstep]
    apply ih
    rw [getTag_cons]
    by_cases hj : j = I
    · rw [if_pos ⟨hj, rfl⟩]
    · rw [if_neg (fun hc => hj hc.1)]
      exact h

/-- A binding with the single constant setter `constSetter F v`, applied to an
item list containing `I`, never fails and leaves `I`'s field `F` equal to `v`. -/
theorem applyItems_const_hit (flt : List ItemId → List ItemId) (F : FieldId) (v : Val)
    (colls : List Coll) (I : ItemId) (l : List ItemId) (st : Store) (h : I ∈ l) :
    (applyItems ⟨flt, [constSetter F v]⟩ colls l st).2 = none ∧
      getTag (applyItems ⟨flt, [constSetter F v]⟩ colls l st).1 I F = some v := by
  revert h
  induction l generalizing st with
  | nil =>
    intro h
    exact absurd h (List.not_mem_nil I)
  | cons j rest ih =>
    intro h
    have hstep : FilteredSetter.set_tags ⟨flt, [constSetter F v]⟩ j (firstColl colls j) st =
        (⟨j, F, v, firstColl colls j⟩ :: st, none) := rfl
    simp only [applyItems, hstep]
    by_cases hj : j = I
    · apply applyItems_const_preserve
      rw [getTag_cons, if_pos ⟨hj, rfl⟩]
    · apply ih
      rcases List.mem_cons.mp h with hmm | hmm
      · exact absurd hmm.symm hj
      · exact hmm

/-- The item loop reads a binding only through its setters. -/
theorem applyItems_congr (fs1 fs2 : FilteredSetter) (hs : fs1.setters = fs2.setters)
    (colls : List Coll) (l : List ItemId) (st : Store) :
    applyItems fs1 colls l st = applyItems fs2 colls l st := by
  induction l generalizing st with
  | nil => rfl
  | cons i rest ih =>
    simp only [applyItems, FilteredSetter.set_tags_eq_applySetters, hs]
    rcases hres : applySetters fs2.setters i (firstColl colls i) st with ⟨st1, err1⟩
    cases err1 with
    | some er => rfl
    | none => exact ih st1

/-- The binding loop reads each binding only through its setters and the value
of its filter at the original full `items` list. -/
theorem runBindings_congr (items : List ItemId) (colls : List Coll)
    (bs1 bs2 : List FilteredSetter)
    (h : List.Forall₂
      (fun a b => a.filter items = b.filter items ∧ a.setters = b.setters) bs1 bs2)
    (st : Store) : runBindings items colls bs1 st = runBindings items colls bs2 st := by
  induction h generalizing st with
  | nil => rfl
  | @cons a b l1 l2 hab hrest ih =>
    simp only [runBindings]
    rw [hab.1, applyItems_congr a b hab.2]
    rcases hres : applyItems b colls (b.filter items) st with ⟨st1, err1⟩
    cases err1 with
    | some er => rfl
    | none => exact ih st1

/-- A constant setter never fails. -/
theorem constSetter_total (f : FieldId) (v : Val) : TotalSetter (constSetter f v) :=
  fun _ _ _ => ⟨v, rfl⟩

/-- C1: During `RuleSet.set_tags` (`Tagger.set_tags`), for every matched item
the collection passed to the binding's setters is determined by scanning the
`collections` sequence in its given order and selecting the first collection
that contains the item — every write performed by a setter carries exactly
`firstColl colls` of its item as its collection context. -/
theorem claim1_first_collection_resolution (t : Tagger) (items : List ItemId)
    (colls : List Coll) (st0 st' : Store) (err : Option String)
    (h : t.set_tags items colls st0 = (st', err)) :
    ∃ new, st' = new ++ st0 ∧ ∀ e ∈ new, e.coll = firstColl colls e.item := by
  rw [Tagger.set_tags_eq_runBindings] at h
  exact runBindings_events items colls t.setters st0 st' err h

/-- C1 witness: an item present only in the second of two collections is
tagged with that second collection as its context. -/
theorem claim1_witness :
    ∃ new, (Tagger.set_tags ⟨[⟨fun l => l, [constSetter 5 9]⟩]⟩ [10]
        [[1, 2, 3], [10, 4, 5, 6, 7]] []).1 = new ++ [] ∧
      ∀ e ∈ new, e.coll = firstColl [[1, 2, 3], [10, 4, 5, 6, 7]] e.item :=
  claim1_first_collection_resolution ⟨[⟨fun l => l, [constSetter 5 9]⟩]⟩ [10]
    [[1, 2, 3], [10, 4, 5, 6, 7]] [] _ _ rfl

/-- C2: every `RuleBinding`'s filter is applied to the full original `items`
sequence: the outcome of `Tagger.set_tags` depends on each binding's filter
only through its value at the original `items` list, never at any narrowed
list. -/
theorem claim2_filter_independence (items : List ItemId) (colls : List Coll)
    (st0 : Store) (t1 t2 : Tagger)
    (h : List.Forall₂
      (fun a b => a.filter items = b.filter items ∧ a.setters = b.setters)
      t1.setters t2.setters) :
    t1.set_tags items colls st0 = t2.set_tags items colls st0 :=
  runBindings_congr items colls t1.setters t2.setters h st0

/-- C2 witness: two taggers whose filters agree only on the full input list
produce identical outcomes. -/
theorem claim2_witness :
    Tagger.set_tags ⟨[⟨fun l => l, [constSetter 1 2]⟩]⟩ [3] [[3]] [] =
      Tagger.set_tags ⟨[⟨fun _ => [3], [constSetter 1 2]⟩]⟩ [3] [[3]] [] :=
  claim2_filter_independence [3] [[3]] [] ⟨[⟨fun l => l, [constSetter 1 2]⟩]⟩
    ⟨[⟨fun _ => [3], [constSetter 1 2]⟩]⟩
    (List.Forall₂.cons ⟨rfl, rfl⟩ List.Forall₂.nil)

/-- C8: `FilteredSetter.set_tags` invokes every one of its setters, in the
binding's fixed order, passing (item, collection) to each, with no
short-circuiting when no setter fails: a successful run appends one write per
setter, in setter order, each targeting the given item with the given
collection. -/
theorem claim8_all_setters_in_order (fs : FilteredSetter) (i : ItemId) (c : Coll)
    (st st' : Store) (h : fs.set_tags i c st = (st', none)) :
    ∃ evs : List SetEvent, st' = evs.reverse ++ st ∧
      evs.map SetEvent.field = fs.setters.map Setter.field ∧
      ∀ e ∈ evs, e.item = i ∧ e.coll = c := by
  rw [FilteredSetter.set_tags_eq_applySetters] at h
  exact applySetters_ok fs.setters i c st st' h

/-- C8 witness: a two-setter binding writes both fields, in order, with the
given item and collection. -/
theorem claim8_witness :
    ∃ evs : List SetEvent,
      ([⟨5, 2, 20, [5, 6]⟩, ⟨5, 1, 10, [5, 6]⟩] : Store) = evs.reverse ++ [] ∧
      evs.map SetEvent.field =
        (FilteredSetter.mk (fun l => l) [constSetter 1 10, constSetter 2 20]).setters.map
          Setter.field ∧
      ∀ e ∈ evs, e.item = 5 ∧ e.coll = [5, 6] :=
  claim8_all_setters_in_order ⟨fun l => l, [constSetter 1 10, constSetter 2 20]⟩ 5 [5, 6]
    [] [⟨5, 2, 20, [5, 6]⟩, ⟨5, 1, 10, [5, 6]⟩] rfl

/-- C3: bindings are applied in declaration order, so when an earlier binding
B1 and a later binding B2 both match item `I` and both set field `F`, the
value remaining after `Tagger.set_tags` is the one written by B2, regardless
of the item's position in the input sequence. -/
theorem claim3_last_write_wins (f1 f2 : List ItemId → List ItemId) (s1 : Setter)
    (F : FieldId) (v2 : Val) (I : ItemId) (items : List ItemId) (colls : List Coll)
    (st0 : Store) (hs1f : s1.field = F) (hs1t : TotalSetter s1)
    (_h1 : I ∈ f1 items) (h2 : I ∈ f2 items) :
    (Tagger.set_tags ⟨[⟨f1, [s1]⟩, ⟨f2, [constSetter F v2]⟩]⟩ items colls st0).2 = none ∧
      getTag
        (Tagger.set_tags ⟨[⟨f1, [s1]⟩, ⟨f2, [constSetter F v2]⟩]⟩ items colls st0).1 I F
        = some v2 := by
  have htotA : ∀ s ∈ ([s1] : List Setter), TotalSetter s := by
    intro s hs
    rw [List.mem_singleton] at hs
    subst hs
    exact hs1t
  rcases hres : applyItems ⟨f1, [s1]⟩ colls (f1 items) st0 with ⟨stA, errA⟩
  have herrA : errA = none := by
    have hA := applyItems_total ⟨f1, [s1]⟩ htotA colls (f1 items) st0
    rw [hres] at hA
    exact hA
  subst herrA
  have hB := applyItems_const_hit f2 F v2 colls I (f2 items) stA h2
  have hmain : Tagger.set_tags ⟨[⟨f1, [s1]⟩, ⟨f2, [constSetter F v2]⟩]⟩ items colls st0 =
      applyItems ⟨f2, [constSetter F v2]⟩ colls (f2 items) stA := by
    rw [Tagger.set_tags_eq_runBindings]
    simp only [runBindings, hres]
    rcases hresB : applyItems ⟨f2, [constSetter F v2]⟩ colls (f2 items) stA with ⟨stB, errB⟩
    cases errB with
    | some er => rfl
    | none => rfl
  rw [hmain]
  exact hB

/-- C3 witness: with B1 writing 5 and the later B2 writing 11 to field 3 of
item 7, the remaining value is 11. -/
theorem claim3_witness :
    (Tagger.set_tags ⟨[⟨fun _ => [7], [constSetter 3 5]⟩,
        ⟨fun _ => [7], [constSetter 3 11]⟩]⟩ [] [] []).2 = none ∧
      getTag (Tagger.set_tags ⟨[⟨fun _ => [7], [constSetter 3 5]⟩,
        ⟨fun _ => [7], [constSetter 3 11]⟩]⟩ [] [] []).1 7 3 = some 11 :=
  claim3_last_write_wins (fun _ => [7]) (fun _ => [7]) (constSetter 3 5) 3 11 7 [] [] []
    rfl (constSetter_total 3 5) (by decide) (by decide)

/-- C7: when a matched item belongs to no collection in `collections`,
`RuleSet.set_tags` does not raise: the whole run (with non-failing setters)
reports no error, and every write to that item carries the empty collection as
its context. -/
theorem claim7_no_collection_empty_context (t : Tagger) (items : List ItemId)
    (colls : List Coll) (st0 : Store) (i : ItemId)
    (hnc : ∀ c ∈ colls, i ∉ c)
    (htot : ∀ fs ∈ t.setters, ∀ s ∈ fs.setters, TotalSetter s) :
    ∃ new, t.set_tags items colls st0 = (new ++ st0, none) ∧
      ∀ e ∈ new, e.item = i → e.coll = [] := by
  rcases hres : t.set_tags items colls st0 with ⟨st', err⟩
  have herr : err = none := by
    have hud := runBindings_total items colls t.setters htot st0
    rw [Tagger.set_tags_eq_runBindings] at hres
    rw [hres] at hud
    exact hud
  subst herr
  obtain ⟨new, hst, hmem⟩ := runBindings_events items colls t.setters st0 st' none hres
  have hfc : firstColl colls i = [] := by
    unfold firstColl
    rw [List.find?_eq_none.mpr]
    · rfl
    · intro c hc
      simpa using hnc c hc
  refine ⟨new, ?_, ?_⟩
  · rw [hst]
  · intro e he hei
    rw [hmem e he, hei, hfc]

/-- C7 witness: an item in none of the collections is tagged without error,
with the empty collection as context. -/
theorem claim7_witness :
    ∃ new, Tagger.set_tags ⟨[⟨fun l => l, [constSetter 2 4]⟩]⟩ [9] [[1], [2]] [] =
        (new ++ [], none) ∧
      ∀ e ∈ new, e.item = 9 → e.coll = [] :=
  claim7_no_collection_empty_context ⟨[⟨fun l => l, [constSetter 2 4]⟩]⟩ [9] [[1], [2]]
    [] 9 (by decide)
    (by
      intro fs hfs s hs
      rw [List.mem_singleton] at hfs
      subst hfs
      rw [List.mem_singleton] at hs
      subst hs
      exact constSetter_total 2 4)

/-- C4: if a setter fails while processing item `i2` after item `i1` was fully
processed, the error propagates out of `Tagger.set_tags`, `i1` keeps all its
writes, `i2` keeps exactly the writes of the setters that ran before the
failing one (none when the first setter failed), and later matched items
(`i3`) are left untouched.  The first conjunct is the scenario where the first
setter fails on `i2`; the second where the second setter fails on `i2`. -/
theorem claim4_fail_fast_mid_apply (i1 i2 i3 : ItemId) (F1 F2 : FieldId) (v1 v2 : Val)
    (items : List ItemId) (colls : List Coll) (st0 : Store) (hne : i1 ≠ i2) :
    Tagger.set_tags
        ⟨[⟨fun _ => [i1, i2, i3],
           [⟨F1, fun _ it _ => if it = i2 then Except.error "S1" else Except.ok v1⟩,
            constSetter F2 v2]⟩]⟩ items colls st0 =
      (⟨i1, F2, v2, firstColl colls i1⟩ :: ⟨i1, F1, v1, firstColl colls i1⟩ :: st0,
        some "S1") ∧
    Tagger.set_tags
        ⟨[⟨fun _ => [i1, i2, i3],
           [constSetter F1 v1,
            ⟨F2, fun _ it _ => if it = i2 then Except.error "S2" else Except.ok v2⟩]⟩]⟩
        items colls st0 =
      (⟨i2, F1, v1, firstColl colls i2⟩ :: ⟨i1, F2, v2, firstColl colls i1⟩ ::
        ⟨i1, F1, v1, firstColl colls i1⟩ :: st0, some "S2") := by
  constructor
  · rw [Tagger.set_tags_eq_runBindings]
    simp only [runBindings, applyItems, FilteredSetter.set_tags_eq_applySetters, applySetters,
      Setter.set, constSetter, hne, if_neg, if_pos, if_true, if_false]
  · rw [Tagger.set_tags_eq_runBindings]
    simp only [runBindings, applyItems, FilteredSetter.set_tags_eq_applySetters, applySetters,
      Setter.set, constSetter, hne, if_neg, if_pos, if_true, if_false]

/-- C4 witness: the fail-fast scenario evaluated at concrete items, fields and
values. -/
theorem claim4_witness :
    Tagger.set_tags
        ⟨[⟨fun _ => [0, 1, 2],
           [⟨10, fun _ it _ => if it = 1 then Except.error "S1" else Except.ok 3⟩,
            constSetter 11 4]⟩]⟩ [] [] [] =
      (⟨0, 11, 4, firstColl [] 0⟩ :: ⟨0, 10, 3, firstColl [] 0⟩ :: [], some "S1") ∧
    Tagger.set_tags
        ⟨[⟨fun _ => [0, 1, 2],
           [constSetter 10 3,
            ⟨11, fun _ it _ => if it = 1 then Except.error "S2" else Except.ok 4⟩]⟩]⟩
        [] [] [] =
      (⟨1, 10, 3, firstColl [] 1⟩ :: ⟨0, 11, 4, firstColl [] 0⟩ ::
        ⟨0, 10, 3, firstColl [] 0⟩ :: [], some "S2") :=
  claim4_fail_fast_mid_apply 0 1 2 10 11 3 4 [] [] [] (by decide)

/-- C6: `Tagger.from_config` on an already-compiled `Tagger` is an idempotent
pass-through: the very same `Tagger` (same bindings, same order) is returned. -/
theorem claim6_idempotent_pass_through
    (ff : SpecVal → Except CompileError (List ItemId → List ItemId))
    (sf : FieldId → SpecVal → Except CompileError Setter)
    (table : List (String × FieldId)) (t : Tagger) :
    Tagger.from_config ff sf table (TaggerConfig.compiled t) = Except.ok t := rfl

/-- C10: a rule-spec mapping that lacks a `filter` key makes
`Tagger.from_config` fail with the raw mapping-lookup `KeyError` — not with
`InvalidFilterSpecError` — and produce no `Tagger`. -/
theorem claim10_missing_filter_is_key_error
    (ff : SpecVal → Except CompileError (List ItemId → List ItemId))
    (sf : FieldId → SpecVal → Except CompileError Setter)
    (table : List (String × FieldId)) (kvs : List (String × SpecVal))
    (rest : List RuleEntry) (h : lookupKey kvs "filter" = none) :
    Tagger.from_config ff sf table (TaggerConfig.raw (RuleEntry.spec kvs :: rest)) =
      Except.error (CompileError.keyError "filter") := by
  simp only [Tagger.from_config, compileRules, compileRule, h, Except.map]

/-- C10 witness: a spec with only a `field` key fails with `KeyError`. -/
theorem claim10_witness :
    Tagger.from_config (fun _ => Except.ok (fun l => l))
        (fun fld _ => Except.ok (constSetter fld 0)) []
        (TaggerConfig.raw [RuleEntry.spec [("field", 1)]]) =
      Except.error (CompileError.keyError "filter") :=
  claim10_missing_filter_is_key_error (fun _ => Except.ok (fun l => l))
    (fun fld _ => Except.ok (constSetter fld 0)) [] [("field", 1)] [] (by decide)

/-- The rule loop compiles each config element independently: a successful
compile yields one binding per rule, and an already-built binding is placed at
its own position unchanged. -/
theorem compileRules_binding_pass_through
    (ff : SpecVal → Except CompileError (List ItemId → List ItemId))
    (sf : FieldId → SpecVal → Except CompileError Setter)
    (table : List (String × FieldId)) (rules : List RuleEntry)
    (l : List FilteredSetter) (h : compileRules ff sf table rules = Except.ok l) :
    l.length = rules.length ∧
      ∀ k fs, rules.get? k = some (RuleEntry.binding fs) → l.get? k = some fs := by
  induction rules generalizing l with
  | nil =>
    simp only [compileRules, Except.ok.injEq] at h
    subst h
    exact ⟨rfl, by intro k fs hk; simp at hk⟩
  | cons r rs ih =>
    cases hr : compileRule ff sf table r with
    | error e =>
      simp only [compileRules, hr] at h
      exact Except.noConfusion h
    | ok fs0 =>
      cases hrs : compileRules ff sf table rs with
      | error e =>
        simp only [compileRules, hr, hrs] at h
        exact Except.noConfusion h
      | ok rest =>
        simp only [compileRules, hr, hrs, Except.ok.injEq] at h
        subst h
        obtain ⟨hlen, hget⟩ := ih rest hrs
        refine ⟨by simp [hlen], ?_⟩
        intro k fs hk
        cases k with
        | zero =>
          simp only [List.get?] at hk ⊢
          injection hk with hk1
          subst hk1
          simp only [compileRule, Except.ok.injEq] at hr
          rw [hr]
        | succ k =>
          simp only [List.get?] at hk ⊢
          exact hget k fs hk

/-- C9: in `Tagger.from_config` applied to a raw sequence, any element that is
already a `FilteredSetter` is placed into the resulting `Tagger` verbatim —
same binding, same position — without rebuilding its filter or setters. -/
theorem claim9_prebuilt_binding_verbatim
    (ff : SpecVal → Except CompileError (List ItemId → List ItemId))
    (sf : FieldId → SpecVal → Except CompileError Setter)
    (table : List (String × FieldId)) (rules : List RuleEntry) (t : Tagger)
    (h : Tagger.from_config ff sf table (TaggerConfig.raw rules) = Except.ok t) :
    t.setters.length = rules.length ∧
      ∀ k fs, rules.get? k = some (RuleEntry.binding fs) → t.setters.get? k = some fs := by
  cases hc : compileRules ff sf table rules with
  | error e =>
    simp only [Tagger.from_config, hc, Except.map] at h
    exact Except.noConfusion h
  | ok l =>
    simp only [Tagger.from_config, hc, Except.map, Except.ok.injEq] at h
    subst h
    exact compileRules_binding_pass_through ff sf table rules l hc

/-- C9 witness: a prebuilt binding sandwiched between two raw specs appears
verbatim at its own position. -/
theorem claim9_witness :
    (Tagger.mk [⟨fun l => l, []⟩, ⟨fun _ => [], [constSetter 3 7]⟩]).setters.length =
      [RuleEntry.spec [("filter", 0)],
        RuleEntry.binding ⟨fun _ => [], [constSetter 3 7]⟩].length ∧
    ∀ k fs,
      [RuleEntry.spec [("filter", 0)],
        RuleEntry.binding ⟨fun _ => [], [constSetter 3 7]⟩].get? k =
          some (RuleEntry.binding fs) →
      (Tagger.mk [⟨fun l => l, []⟩, ⟨fun _ => [], [constSetter 3 7]⟩]).setters.get? k =
        some fs :=
  claim9_prebuilt_binding_verbatim (fun _ => Except.ok (fun l => l))
    (fun fld _ => Except.ok (constSetter fld 0)) []
    [RuleEntry.spec [("filter", 0)],
      RuleEntry.binding ⟨fun _ => [], [constSetter 3 7]⟩]
    ⟨[⟨fun l => l, []⟩, ⟨fun _ => [], [constSetter 3 7]⟩]⟩ rfl

/-- If the setter factory never fails and some non-reserved key of the mapping
does not resolve to a field, the setter comprehension fails with
`UnknownFieldError` (for the first such key encountered). -/
theorem compileSetters_unknown_key (sf : FieldId → SpecVal → Except CompileError Setter)
    (table : List (String × FieldId))
    (hsf : ∀ fld v, ∃ s, sf fld v = Except.ok s)
    (kvs : List (String × SpecVal)) (k : String)
    (hk : k ∈ kvs.map Prod.fst) (hk1 : k ≠ "filter") (hk2 : k ≠ "field")
    (hres : from_name table k = none) :
    ∃ k', compileSetters sf table kvs = Except.error (CompileError.unknownField k') := by
  induction kvs with
  | nil => simp at hk
  | cons kv rest ih =>
    rcases kv with ⟨k0, v0⟩
    simp only [List.map_cons, List.mem_cons] at hk
    by_cases hres0 : k0 = "filter" ∨ k0 = "field"
    · have hk' : k ∈ rest.map Prod.fst := by
        rcases hk with hmm | hmm
        · exfalso
          rcases hres0 with h0 | h0
          · exact hk1 (hmm.trans h0)
          · exact hk2 (hmm.trans h0)
        · exact hmm
      obtain ⟨k', hk'c⟩ := ih hk'
      refine ⟨k', ?_⟩
      simp only [compileSetters, if_pos hres0]
      exact hk'c
    · cases hfn : from_name table k0 with
      | none =>
        refine ⟨k0, ?_⟩
        simp only [compileSetters, if_neg hres0, hfn]
      | some fld =>
        obtain ⟨s, hs⟩ := hsf fld v0
        have hk' : k ∈ rest.map Prod.fst := by
          rcases hk with hmm | hmm
          · exfalso
            rw [hmm] at hres
            rw [hres] at hfn
            exact Option.noConfusion hfn
          · exact hmm
        obtain ⟨k', hk'c⟩ := ih hk'
        refine ⟨k', ?_⟩
        simp only [compileSetters, if_neg hres0, hfn, hs]
        cases hcs : compileSetters sf table rest with
        | error e =>
          rw [hcs] at hk'c
          injection hk'c with hk'c1
          rw [hk'c1]
        | ok ss =>
          rw [hcs] at hk'c
          exact Except.noConfusion hk'c

/-- C5: for every rule-spec containing a non-reserved key (not `filter`, not
`field`) that does not resolve, case-insensitively, to any known field
identifier, `Tagger.from_config` fails with `UnknownFieldError` and produces
no `Tagger` (factory errors aside: the filter factory succeeds on the spec's
`filter` value and the setter factory never fails). -/
theorem claim5_unknown_field_fails_fast
    (ff : SpecVal → Except CompileError (List ItemId → List ItemId))
    (sf : FieldId → SpecVal → Except CompileError Setter)
    (table : List (String × FieldId)) (fv : SpecVal)
    (flt : List ItemId → List ItemId) (kvs : List (String × SpecVal)) (k : String)
    (hff : ff fv = Except.ok flt)
    (hsf : ∀ fld v, ∃ s, sf fld v = Except.ok s)
    (hk : k ∈ kvs.map Prod.fst) (hk1 : k ≠ "filter") (hk2 : k ≠ "field")
    (hres : from_name table k = none) :
    ∃ k', Tagger.from_config ff sf table
        (TaggerConfig.raw [RuleEntry.spec (("filter", fv) :: kvs)]) =
      Except.error (CompileError.unknownField k') := by
  obtain ⟨k', hk'⟩ := compileSetters_unknown_key sf table hsf kvs k hk hk1 hk2 hres
  refine ⟨k', ?_⟩
  have hlk : lookupKey (("filter", fv) :: kvs) "filter" = some fv := by
    unfold lookupKey
    rw [List.find?_cons_of_pos _ (by simp)]
    rfl
  have hcs : compileSetters sf table (("filter", fv) :: kvs) =
      Except.error (CompileError.unknownField k') := by
    simp only [compileSetters, if_pos (Or.inl rfl)]
    exact hk'
  simp only [Tagger.from_config, compileRules, compileRule, hlk, hff, hcs, Except.map]

/-- C5 witness: a spec with key `not_a_real_field` against a field table that
knows only `bpm` fails with `UnknownFieldError`. -/
theorem claim5_witness :
    ∃ k', Tagger.from_config (fun _ => Except.ok (fun l => l))
        (fun fld _ => Except.ok (constSetter fld 0)) [("bpm", 3)]
        (TaggerConfig.raw [RuleEntry.spec [("filter", 0), ("not_a_real_field", 5)]]) =
      Except.error (CompileError.unknownField k') :=
  claim5_unknown_field_fails_fast (fun _ => Except.ok (fun l => l))
    (fun fld _ => Except.ok (constSetter fld 0)) [("bpm", 3)] 0 (fun l => l)
    [("not_a_real_field", 5)] "not_a_real_field" rfl
    (fun fld v => ⟨constSetter fld 0, rfl⟩) (by decide) (by decide) (by decide)
    (by decide)
